import Mathlib

/-!
Shallow embedding of the policy-parameter projection script (ppp.py).

The script projects indexed tax-policy parameter values from a base year to a
final year by compounding per-year inflation rates and applying one of two
rounding policies (round down to a grid, round to nearest grid point), with a
sentinel cap of 9e99 standing for "no limit".

Numbers are modelled as rationals; Python list indexing and dictionary lookup
are fallible and are modelled in the Option monad.  Loops of the script are
rendered as structural recursions on the number of remaining iterations.
-/

/-- The sentinel "infinity" cap 9e99 used throughout the script. -/
def cap : ℚ := 9 * 10 ^ 99

/-- Python's float modulo: a % b = a - b * floor(a / b). -/
def pymod (a b : ℚ) : ℚ := a - b * ⌊a / b⌋

/-- Python's built-in round to an integer: round half to even. -/
def pyRoundInt (x : ℚ) : ℤ :=
  if pymod x 1 < 1 / 2 then ⌊x⌋
  else if 1 / 2 < pymod x 1 then ⌊x⌋ + 1
  else if ⌊x⌋ % 2 = 0 then ⌊x⌋ else ⌊x⌋ + 1

/-- Python's built-in round(x, n): round half to even at n decimal digits. -/
def pyRound (x : ℚ) (n : ℕ) : ℚ := (pyRoundInt (x * 10 ^ n) : ℚ) / 10 ^ n

/-- A parameter value for one year: a scalar or a per-column list
(one entry per filing status). -/
inductive PVal where
  | scalar (v : ℚ)
  | vec (vs : List ℚ)
deriving DecidableEq

/-- The third argument of round_down / round_nearest in the script: either the
scalar final-year factor or the intermediate-year factor dictionary. -/
inductive IFac where
  | scalar (f : ℚ)
  | dict (d : List (ℕ × ℚ))
deriving DecidableEq

/-- Reading the factor for a year: `ifactor[year]` when the argument is the
dictionary (fallible), the factor itself when it is a scalar. -/
def IFac.get : IFac → ℕ → Option ℚ
  | .scalar f, _ => some f
  | .dict d, year => List.lookup year d

/-- One record of the parameter table `pdata`: the fields of
`pdata[pname]` that the script reads. `round_dir` is `none` when the
'round_dir' key is absent. -/
structure PRec where
  indexed : Bool
  value : List PVal
  value_yrs : List ℕ
  round_to : List ℚ
  round_dir : Option String
deriving DecidableEq

/-- round_down from the script.  For a list value it uses `value[idx]` and
`round_to[idx]`; for a scalar it uses `round_to[0]`.  The result is
`floor(val / g) * g` capped at 9e99. -/
def round_down (round_to : List ℚ) (value : PVal) (ifactor : IFac) (idx year : ℕ) :
    Option ℚ :=
  match value with
  | .vec vs => do
      let v ← vs[idx]?
      let f ← ifactor.get year
      let val := v * f
      let g ← round_to[idx]?
      pure (min ((⌊val / g⌋ : ℚ) * g) cap)
  | .scalar v => do
      let f ← ifactor.get year
      let val := v * f
      let g ← round_to[0]?
      pure (min ((⌊val / g⌋ : ℚ) * g) cap)

/-- round_nearest from the script.  Starts from `ceil(val / g) * g`, then when
`0 < val % g < g / 2` subtracts one granularity unit (in the list branch the
subtracted value is additionally capped on the spot); the returned value is
capped at 9e99. -/
def round_nearest (round_to : List ℚ) (value : PVal) (ifactor : IFac) (idx year : ℕ) :
    Option ℚ :=
  match value with
  | .vec vs => do
      let v ← vs[idx]?
      let f ← ifactor.get year
      let val := v * f
      let g ← round_to[idx]?
      let r0 := (⌈val / g⌉ : ℚ) * g
      let r := if pymod val g < g / 2 ∧ pymod val g > 0 then min (r0 - g) cap else r0
      pure (min r cap)
  | .scalar v => do
      let f ← ifactor.get year
      let val := v * f
      let g ← round_to[0]?
      let r0 := (⌈val / g⌉ : ℚ) * g
      let r := if pymod val g < g / 2 ∧ pymod val g > 0 then r0 - g else r0
      pure (min r cap)

/-- The loop accumulating final_ifactor: runs `n` more iterations starting at
`year`, multiplying `acc` by `1 + irate[year - syear]` each time. -/
def finalAux (syear : ℕ) (irate : List ℚ) : ℕ → ℚ → ℕ → Option ℚ
  | _year, acc, 0 => some acc
  | year, acc, n + 1 => do
      let r ← irate[year - syear]?
      finalAux syear irate (year + 1) (acc * (1 + r)) n

/-- final_ifactor from the script: the product of `1 + irate[year - syear]`
for year in range(pyear, fyear), starting from 1.0. -/
def final_ifactor (syear pyear fyear : ℕ) (irate : List ℚ) : Option ℚ :=
  finalAux syear irate pyear 1 (fyear - pyear)

/-- The loop building the ifactor dictionary: at each remaining year it stores
the running factor, then multiplies it by `1 + irate[year - syear]`. -/
def ifactorAux (syear : ℕ) (irate : List ℚ) : ℕ → ℚ → ℕ → Option (List (ℕ × ℚ))
  | _year, _factor, 0 => some []
  | year, factor, n + 1 => do
      let r ← irate[year - syear]?
      let rest ← ifactorAux syear irate (year + 1) (factor * (1 + r)) n
      pure ((year, factor) :: rest)

/-- The ifactor dictionary of the script, with one key per year in
range(byear, fyear), the factor for byear itself being 1.0. -/
def ifactor (syear byear fyear : ℕ) (irate : List ℚ) : Option (List (ℕ × ℚ)) :=
  ifactorAux syear irate byear 1 (fyear - byear)

/-- The eligibility loop body of the script: walk the (sorted) parameter
names; keep a name when its record has `indexed` set, fyear among its value
years, and the name is not in skip_list. -/
def revLoop (fyear : ℕ) (skip_list : List String) (pdata : List (String × PRec)) :
    List String → List String
  | [] => []
  | pname :: rest =>
      match List.lookup pname pdata with
      | some pdict =>
          if pdict.indexed = true ∧ fyear ∈ pdict.value_yrs then
            if pname ∉ skip_list then pname :: revLoop fyear skip_list pdata rest
            else revLoop fyear skip_list pdata rest
          else revLoop fyear skip_list pdata rest
      | none => revLoop fyear skip_list pdata rest

/-- reverting_params from the script: the eligibility filter applied to the
sorted list of parameter names. -/
def reverting_params (fyear : ℕ) (skip_list : List String) (pdata : List (String × PRec)) :
    List String :=
  revLoop fyear skip_list pdata ((pdata.map Prod.fst).mergeSort (fun a b => decide (a ≤ b)))

/-- The verbatim-copy loop: writes `(year, value[year - syear])` lines for `n`
consecutive years starting at `year`.  Used for the ppp.old dump and for the
years up to the base year in ppp.new. -/
def copyAux (syear : ℕ) (vals : List PVal) : ℕ → ℕ → Option (List (ℕ × PVal))
  | _year, 0 => some []
  | year, n + 1 => do
      let v ← vals[year - syear]?
      let rest ← copyAux syear vals (year + 1) n
      pure ((year, v) :: rest)

/-- One column of an intermediate-year multi-column value.  With a declared
'round_dir' of 'down' or 'nearest' the matching rounding function is called on
the whole base value; with any other declared direction nothing is assigned and
the stale val_round from the previous column (unbound at the first column) is
used; with no 'round_dir' key the default rounding to 2 decimals applies. -/
def intermCol (rt : List ℚ) (rd : Option String) (ifd : List (ℕ × ℚ)) (bs : List ℚ)
    (year idx : ℕ) (stale : Option ℚ) : Option ℚ :=
  match rd with
  | some s =>
      if s = "down" then round_down rt (.vec bs) (.dict ifd) idx year
      else if s = "nearest" then round_nearest rt (.vec bs) (.dict ifd) idx year
      else stale
  | none => do
      let b ← bs[idx]?
      let f ← List.lookup year ifd
      pure (min cap (pyRound (b * f) 2))

/-- The per-column loop of an intermediate year, threading the val_round
variable from one column to the next. -/
def intermCols (rt : List ℚ) (rd : Option String) (ifd : List (ℕ × ℚ)) (bs : List ℚ)
    (year : ℕ) : Option ℚ → List ℕ → Option (List ℚ)
  | _stale, [] => some []
  | stale, idx :: rest => do
      let vr ← intermCol rt rd ifd bs year idx stale
      let more ← intermCols rt rd ifd bs year (some vr) rest
      pure (vr :: more)

/-- The value written for one intermediate year.  `prev` is the current value
of the script's `value` variable, which is written unchanged when a declared
'round_dir' is neither 'down' nor 'nearest' on a scalar parameter. -/
def intermValue (rt : List ℚ) (rd : Option String) (ifd : List (ℕ × ℚ))
    (bvalue : PVal) (year : ℕ) (prev : PVal) : Option PVal :=
  match bvalue with
  | .vec bs => do
      let vs ← intermCols rt rd ifd bs year none (List.range bs.length)
      pure (.vec vs)
  | .scalar b =>
      match rd with
      | some s =>
          if s = "down" then (round_down rt (.scalar b) (.dict ifd) 0 year).map .scalar
          else if s = "nearest" then (round_nearest rt (.scalar b) (.dict ifd) 0 year).map .scalar
          else some prev
      | none => do
          let f ← List.lookup year ifd
          pure (.scalar (min cap (pyRound (b * f) 2)))

/-- The intermediate-year loop: one line per year in
range(byear + 1, fyear), threading the `value` variable. -/
def intermAux (rt : List ℚ) (rd : Option String) (ifd : List (ℕ × ℚ)) (bvalue : PVal) :
    ℕ → PVal → ℕ → Option (List (ℕ × PVal))
  | _year, _prev, 0 => some []
  | year, prev, n + 1 => do
      let v ← intermValue rt rd ifd bvalue year prev
      let rest ← intermAux rt rd ifd bvalue (year + 1) v n
      pure ((year, v) :: rest)

/-- One column of the final-year value.  The final factor is passed as a
scalar, so the year argument of the rounding functions is irrelevant; an
invalid declared 'round_dir' leaves the column variable unbound. -/
def finalCol (rt : List ℚ) (rd : Option String) (ps : List ℚ) (ff : ℚ) (idx : ℕ) :
    Option ℚ :=
  match rd with
  | some s =>
      if s = "down" then round_down rt (.vec ps) (.scalar ff) idx 0
      else if s = "nearest" then round_nearest rt (.vec ps) (.scalar ff) idx 0
      else none
  | none => do
      let p ← ps[idx]?
      pure (min cap (pyRound (p * ff) 0))

/-- The per-column loop of the final year. -/
def finalCols (rt : List ℚ) (rd : Option String) (ps : List ℚ) (ff : ℚ) :
    List ℕ → Option (List ℚ)
  | [] => some []
  | idx :: rest => do
      let v ← finalCol rt rd ps ff idx
      let more ← finalCols rt rd ps ff rest
      pure (v :: more)

/-- The final-year value, computed from `pvalue`, the parameter's PRIOR-year
value, scaled by the scalar final factor `ff`.  For a scalar parameter with an
invalid declared 'round_dir' the stale `value` variable `prev` is written. -/
def finalValue (rt : List ℚ) (rd : Option String) (pvalue : PVal) (ff : ℚ)
    (prev : PVal) : Option PVal :=
  match pvalue with
  | .vec ps => do
      let vs ← finalCols rt rd ps ff (List.range ps.length)
      pure (.vec vs)
  | .scalar p =>
      match rd with
      | some s =>
          if s = "down" then (round_down rt (.scalar p) (.scalar ff) 0 0).map .scalar
          else if s = "nearest" then (round_nearest rt (.scalar p) (.scalar ff) 0 0).map .scalar
          else some prev
      | none => some (.scalar (min cap (pyRound (p * ff) 0)))

/-- The ppp.new block for one parameter: the prior-year line, the verbatim
lines up to the base year, the computed intermediate-year lines, and the
computed final-year line.  `ifd` and `ff` are the factor structures computed
once before the loop. -/
def projectParam (syear pyear byear fyear : ℕ) (ifd : List (ℕ × ℚ)) (ff : ℚ)
    (r : PRec) : Option (List (ℕ × PVal)) := do
  let v0 ← r.value[pyear - syear]?
  let copies ← copyAux syear r.value (pyear + 1) (byear - pyear)
  let bvalue ← r.value[byear - syear]?
  let prev0 := match copies.getLast? with
               | some yv => yv.2
               | none => v0
  let inter ← intermAux r.round_to r.round_dir ifd bvalue (byear + 1) prev0 (fyear - byear - 1)
  let prev1 := match inter.getLast? with
               | some yv => yv.2
               | none => prev0
  let pvalue ← r.value[pyear - syear]?
  let fv ← finalValue r.round_to r.round_dir pvalue ff prev1
  pure ((pyear, v0) :: copies ++ inter ++ [(fyear, fv)])

/-- The ppp.old file: for each eligible parameter name, the verbatim value
lines for the years in range(pyear, fyear + 1). -/
def writeOld (syear pyear fyear : ℕ) (pdata : List (String × PRec)) :
    List String → Option (List (String × List (ℕ × PVal)))
  | [] => some []
  | pname :: rest => do
      let r ← List.lookup pname pdata
      let lines ← copyAux syear r.value pyear (fyear + 1 - pyear)
      let more ← writeOld syear pyear fyear pdata rest
      pure ((pname, lines) :: more)

/-- The ppp.new file: the projected block of every eligible parameter. -/
def writeNew (syear pyear byear fyear : ℕ) (ifd : List (ℕ × ℚ)) (ff : ℚ)
    (pdata : List (String × PRec)) : List String → Option (List (String × List (ℕ × PVal)))
  | [] => some []
  | pname :: rest => do
      let r ← List.lookup pname pdata
      let lines ← projectParam syear pyear byear fyear ifd ff r
      let more ← writeNew syear pyear byear fyear ifd ff pdata rest
      pure ((pname, lines) :: more)

/-- The whole script run, in the script's order: ppp.old is written first,
then the inflation factors are built and ppp.new computed.  The second
component is `none` when the run aborts after ppp.old (for example because the
inflation-rate series is too short for the factor loops). -/
def runScript (syear pyear byear fyear : ℕ) (skip_list : List String)
    (pdata : List (String × PRec)) (irate : List ℚ) :
    Option ((List (String × List (ℕ × PVal))) × Option (List (String × List (ℕ × PVal)))) := do
  let params := reverting_params fyear skip_list pdata
  let old ← writeOld syear pyear fyear pdata params
  let newOut : Option (List (String × List (ℕ × PVal))) := do
      let ff ← final_ifactor syear pyear fyear irate
      let ifd ← ifactor syear byear fyear irate
      writeNew syear pyear byear fyear ifd ff pdata params
  pure (old, newOut)

/-- Modelled from the spec (section 4.3): RoundDown on a scalar with
granularity g is `floor(value / granularity) * granularity` clamped to at
most 9e99. -/
def RoundDownSpec (v g : ℚ) : ℚ := min ((⌊v / g⌋ : ℚ) * g) cap

/-- Modelled from the spec (section 4.3): RoundNearest on a scalar with
granularity g is `ceil(value / granularity) * granularity`, minus one
granularity unit when `0 < value mod granularity < granularity / 2`, clamped
to at most 9e99. -/
def RoundNearestSpec (v g : ℚ) : ℚ :=
  min (if pymod v g > 0 ∧ pymod v g < g / 2 then (⌈v / g⌉ : ℚ) * g - g
       else (⌈v / g⌉ : ℚ) * g) cap

/-- All components of a value are at most c. -/
def scalarLe (c : ℚ) : PVal → Prop
  | .scalar v => v ≤ c
  | .vec vs => ∀ v ∈ vs, v ≤ c

theorem ceil_to_floor (q : ℚ) : (⌈q⌉ : ℤ) = -⌊-q⌋ := by
  rw [Int.floor_neg, neg_neg]

/-- C1: round_nearest on a scalar with inflation factor 1 computes
`ceil(v / g) * g`, corrected down by one granularity unit exactly when
`0 < v mod g < g / 2`, clamped at 9e99; in particular a midpoint is not
corrected (1050 at granularity 100 gives 1100) while a lower-half remainder is
(1020 at granularity 100 gives 1000). -/
theorem round_nearest_matches_spec (v g : ℚ) (idx year : ℕ) :
    round_nearest [g] (.scalar v) (.scalar 1) idx year = some (RoundNearestSpec v g) ∧
    round_nearest [100] (.scalar 1050) (.scalar 1) 0 0 = some 1100 ∧
    round_nearest [100] (.scalar 1020) (.scalar 1) 0 0 = some 1000 := by
  refine ⟨?_, ?_, ?_⟩
  · simp only [round_nearest, IFac.get, RoundNearestSpec, Option.bind_eq_bind,
      Option.some_bind, List.getElem?_cons_zero, mul_one, and_comm, Option.pure_def]
  · simp only [round_nearest, IFac.get, Option.bind_eq_bind, Option.some_bind,
      List.getElem?_cons_zero, mul_one, ceil_to_floor, pymod]
    norm_num [min_def, cap]
  · simp only [round_nearest, IFac.get, Option.bind_eq_bind, Option.some_bind,
      List.getElem?_cons_zero, mul_one, ceil_to_floor, pymod]
    norm_num [min_def, cap]

/-- C4: round_down on a scalar with inflation factor 1 computes
`floor(v / g) * g` clamped at 9e99, and for a positive granularity it never
rounds a positive value upward. -/
theorem round_down_matches_spec (v g : ℚ) (idx year : ℕ) :
    round_down [g] (.scalar v) (.scalar 1) idx year = some (RoundDownSpec v g) ∧
    (0 < g → 0 < v → RoundDownSpec v g ≤ v) := by
  constructor
  · simp only [round_down, IFac.get, RoundDownSpec, Option.bind_eq_bind,
      Option.some_bind, List.getElem?_cons_zero, mul_one, Option.pure_def]
  · intro hg _
    refine le_trans (min_le_left _ _) (le_trans ?_ (le_of_eq (div_mul_cancel₀ v hg.ne')))
    exact mul_le_mul_of_nonneg_right (Int.floor_le (v / g)) hg.le

/-- C4 witness: concrete instance of the monotonicity part. -/
theorem round_down_matches_spec_witness :
    0 < (100 : ℚ) ∧ 0 < (1050 : ℚ) ∧ RoundDownSpec 1050 100 ≤ 1050 :=
  ⟨by norm_num, by norm_num,
    (round_down_matches_spec 1050 100 0 0).2 (by norm_num) (by norm_num)⟩

/-- C5 counterexample: with a length-1 round_to and a two-column value, the
rounding functions fail with an out-of-range granularity access at column 1
instead of broadcasting the single granularity (column 0 still works). -/
theorem rounding_len1_vec_fails :
    round_down [100] (.vec [1050, 2050]) (.scalar 1) 1 0 = none ∧
    round_nearest [100] (.vec [1050, 2050]) (.scalar 1) 1 0 = none ∧
    round_down [100] (.vec [1050, 2050]) (.scalar 1) 0 0 = some 1000 := by
  refine ⟨?_, ?_, ?_⟩
  · simp [round_down, IFac.get]
  · simp [round_nearest, IFac.get]
  · simp only [round_down, IFac.get, Option.bind_eq_bind, Option.some_bind,
      List.getElem?_cons_zero, mul_one]
    norm_num [min_def, cap]

/-- C5 amended: per-column rounding of a multi-column value agrees with the
scalar case at granularity round_to[idx] whenever idx is in range of both the
value and round_to; when round_to is shorter (in particular of length 1 with
idx > 0), the granularity access is out of range and the computation fails
rather than broadcasting. -/
theorem rounding_per_column (rt : List ℚ) (vs : List ℚ) (f : ℚ) (idx year : ℕ) (v g : ℚ) :
    (vs[idx]? = some v → rt[idx]? = some g →
      round_down rt (.vec vs) (.scalar f) idx year
          = round_down [g] (.scalar v) (.scalar f) idx year ∧
      round_nearest rt (.vec vs) (.scalar f) idx year
          = round_nearest [g] (.scalar v) (.scalar f) idx year) ∧
    (vs[idx]? = some v → rt.length ≤ idx →
      round_down rt (.vec vs) (.scalar f) idx year = none ∧
      round_nearest rt (.vec vs) (.scalar f) idx year = none) := by
  constructor
  · intro hv hg
    constructor
    · simp [round_down, IFac.get, hv, hg]
    · simp only [round_nearest, IFac.get, Option.bind_eq_bind, Option.some_bind,
        hv, hg, List.getElem?_cons_zero]
      by_cases hc : pymod (v * f) g < g / 2 ∧ pymod (v * f) g > 0
      · simp only [if_pos hc, Option.some.injEq]
        rw [min_assoc, min_self]
      · simp [if_neg hc]
  · intro hv hlen
    have hg : rt[idx]? = none := List.getElem?_eq_none hlen
    constructor
    · simp [round_down, IFac.get, hv, hg]
    · simp [round_nearest, IFac.get, hv, hg]

/-- C5 amended witness: concrete instances of both parts. -/
theorem rounding_per_column_witness :
    (([1050, 2057] : List ℚ)[1]? = some 2057 ∧ ([100, 10] : List ℚ)[1]? = some 10 ∧
      round_down [100, 10] (.vec [1050, 2057]) (.scalar 1) 1 0
        = round_down [10] (.scalar 2057) (.scalar 1) 1 0) ∧
    (([100] : List ℚ).length ≤ 1 ∧
      round_down [100] (.vec [1050, 2057]) (.scalar 1) 1 0 = none) :=
  ⟨⟨by simp, by simp,
    ((rounding_per_column [100, 10] [1050, 2057] 1 1 0 2057 10).1 (by simp) (by simp)).1⟩,
   ⟨by simp,
    ((rounding_per_column [100] [1050, 2057] 1 1 0 2057 10).2 (by simp) (by simp)).1⟩⟩

theorem lookup_cons_ne {α β : Type} [BEq α] [LawfulBEq α] (a k : α) (v : β)
    (l : List (α × β)) (h : a ≠ k) :
    List.lookup a ((k, v) :: l) = List.lookup a l := by
  have hb : (a == k) = false := beq_eq_false_iff_ne.mpr h
  simp [List.lookup, hb]

theorem lookup_cons_self {α β : Type} [BEq α] [LawfulBEq α] (k : α) (v : β)
    (l : List (α × β)) :
    List.lookup k ((k, v) :: l) = some v := by
  simp [List.lookup]

theorem ifactorAux_lookup_head (syear : ℕ) (irate : List ℚ) (year : ℕ) (f : ℚ) (n : ℕ)
    (d : List (ℕ × ℚ)) (hd : ifactorAux syear irate year f (n + 1) = some d) :
    List.lookup year d = some f := by
  simp only [ifactorAux, Option.bind_eq_bind, Option.bind_eq_some, Option.pure_def,
    Option.some.injEq] at hd
  obtain ⟨r, _, rest, _, hd⟩ := hd
  subst hd
  exact lookup_cons_self year f rest

theorem ifactorAux_step (syear : ℕ) (irate : List ℚ) :
    ∀ n year f d, ifactorAux syear irate year f n = some d →
      ∀ y, year ≤ y → y + 1 < year + n →
        ∃ g, List.lookup y d = some g ∧
          List.lookup (y + 1) d = some (g * (1 + irate.getD (y - syear) 0)) := by
  intro n
  induction n with
  | zero => intro year f d _ y hy hlt; omega
  | succ n ih =>
    intro year f d hd y hy hlt
    simp only [ifactorAux, Option.bind_eq_bind, Option.bind_eq_some, Option.pure_def,
      Option.some.injEq] at hd
    obtain ⟨r, hr, rest, hrest, hd⟩ := hd
    subst hd
    rcases eq_or_lt_of_le hy with heq | hylt
    · subst heq
      have hn : 0 < n := by omega
      obtain ⟨m, hm⟩ := Nat.exists_eq_add_of_lt hn
      refine ⟨f, lookup_cons_self year f rest, ?_⟩
      rw [hm] at hrest
      have hhead := ifactorAux_lookup_head syear irate (year + 1) (f * (1 + r)) m rest
        (by simpa using hrest)
      rw [lookup_cons_ne (year + 1) year f rest (by omega), hhead]
      have hg : irate.getD (year - syear) 0 = r := by
        rw [List.getD_eq_getElem?_getD, hr, Option.getD_some]
      rw [hg]
    · obtain ⟨g, h1, h2⟩ := ih (year + 1) (f * (1 + r)) rest hrest y (by omega) (by omega)
      exact ⟨g, by rw [lookup_cons_ne y year f rest (by omega)]; exact h1,
        by rw [lookup_cons_ne (y + 1) year f rest (by omega)]; exact h2⟩

/-- C3 counterexample: over the window [2019, 2026) with a zero rate series,
the factor dictionary stores factors for 2019..2025 only; 2025 lies in the
window, yet there is no stored factor for 2025 + 1 = 2026, so the claimed
equation `factor(y+1) = factor(y) * (1 + rate[y])` has no witness at
y = 2025. -/
theorem windowFactors_top_has_no_successor :
    ifactor 2013 2019 2026 (List.replicate 13 0) =
      some [(2019, 1), (2020, 1), (2021, 1), (2022, 1), (2023, 1), (2024, 1), (2025, 1)] ∧
    List.lookup 2025
      [(2019, (1 : ℚ)), (2020, 1), (2021, 1), (2022, 1), (2023, 1), (2024, 1), (2025, 1)]
      = some 1 ∧
    List.lookup 2026
      [(2019, (1 : ℚ)), (2020, 1), (2021, 1), (2022, 1), (2023, 1), (2024, 1), (2025, 1)]
      = none := by
  refine ⟨?_, rfl, rfl⟩
  norm_num [ifactor, ifactorAux]

/-- C3 amended: for every window and rate series for which the factor
dictionary is built, the factor stored for base_year is exactly 1, and for
every year y in the window whose successor y + 1 is also in the window (that
is, y + 1 < final_year), the stored factor for y + 1 equals the stored factor
for y times (1 + rate[y]); the top window year final_year - 1 has no stored
successor factor. -/
theorem windowFactors_recurrence (syear byear fyear : ℕ) (irate : List ℚ)
    (d : List (ℕ × ℚ)) (hbf : byear < fyear)
    (hd : ifactor syear byear fyear irate = some d) :
    List.lookup byear d = some 1 ∧
    ∀ y, byear ≤ y → y + 1 < fyear →
      ∃ g, List.lookup y d = some g ∧
        List.lookup (y + 1) d = some (g * (1 + irate.getD (y - syear) 0)) := by
  rw [ifactor] at hd
  constructor
  · have hn : fyear - byear = (fyear - byear - 1) + 1 := by omega
    rw [hn] at hd
    exact ifactorAux_lookup_head syear irate byear 1 (fyear - byear - 1) d hd
  · intro y hy hlt
    exact ifactorAux_step syear irate (fyear - byear) byear 1 d hd y hy (by omega)

/-- C3 amended witness: the recurrence theorem applied to the concrete window
[2019, 2026) with a zero rate series. -/
theorem windowFactors_recurrence_witness :
    2019 < 2026 ∧
    ifactor 2013 2019 2026 (List.replicate 13 0) =
      some [(2019, 1), (2020, 1), (2021, 1), (2022, 1), (2023, 1), (2024, 1), (2025, 1)] ∧
    List.lookup 2019
      [(2019, (1 : ℚ)), (2020, 1), (2021, 1), (2022, 1), (2023, 1), (2024, 1), (2025, 1)]
      = some 1 :=
  ⟨by norm_num, by norm_num [ifactor, ifactorAux],
    (windowFactors_recurrence 2013 2019 2026 (List.replicate 13 0)
      [(2019, 1), (2020, 1), (2021, 1), (2022, 1), (2023, 1), (2024, 1), (2025, 1)]
      (by norm_num) (by norm_num [ifactor, ifactorAux])).1⟩

/-- C8 counterexample: at granularity 11 the cap 9e99 is not on the grid
(9e99 = 11 * q + 2), so rounding the on-grid value 9e99 + 9 down clamps it to
9e99, and rounding the result again moves it to 9e99 - 2: round_down applied
twice differs from round_down applied once. -/
theorem rounding_not_idempotent_at_cap :
    round_down [11] (.scalar (cap + 9)) (.scalar 1) 0 0 = some cap ∧
    round_down [11] (.scalar cap) (.scalar 1) 0 0 = some (cap - 2) ∧
    cap - 2 ≠ cap := by
  refine ⟨?_, ?_, by norm_num [cap]⟩
  · simp only [round_down, IFac.get, Option.bind_eq_bind, Option.some_bind,
      List.getElem?_cons_zero, mul_one, Option.pure_def, Option.some.injEq]
    rw [min_def]
    norm_num [cap]
  · simp only [round_down, IFac.get, Option.bind_eq_bind, Option.some_bind,
      List.getElem?_cons_zero, mul_one, Option.pure_def, Option.some.injEq]
    rw [min_def]
    norm_num [cap]

theorem round_down_on_grid (m : ℤ) (g : ℚ) (hg : 0 < g) (hle : (m : ℚ) * g ≤ cap) :
    round_down [g] (.scalar ((m : ℚ) * g)) (.scalar 1) 0 0 = some ((m : ℚ) * g) := by
  simp only [round_down, IFac.get, Option.bind_eq_bind, Option.some_bind,
    List.getElem?_cons_zero, mul_one, Option.pure_def, Option.some.injEq]
  rw [mul_div_cancel_right₀ _ hg.ne', Int.floor_intCast]
  exact min_eq_left hle

theorem round_nearest_on_grid (m : ℤ) (g : ℚ) (hg : 0 < g) (hle : (m : ℚ) * g ≤ cap) :
    round_nearest [g] (.scalar ((m : ℚ) * g)) (.scalar 1) 0 0 = some ((m : ℚ) * g) := by
  simp only [round_nearest, IFac.get, Option.bind_eq_bind, Option.some_bind,
    List.getElem?_cons_zero, mul_one, Option.pure_def, Option.some.injEq]
  have hmod : pymod ((m : ℚ) * g) g = 0 := by
    rw [pymod, mul_div_cancel_right₀ _ hg.ne', Int.floor_intCast]
    ring
  rw [hmod]
  simp only [lt_irrefl, and_false, if_false, mul_div_cancel_right₀ _ hg.ne',
    Int.ceil_intCast]
  exact min_eq_left hle

/-- C8 amended: at a positive granularity, applying RoundDown (resp.
RoundNearest) twice agrees with applying it once whenever the once-rounded
grid value does not exceed the cap 9e99 (no clamping); when clamping to 9e99
occurs at a granularity not dividing 9e99, a second application can change the
value. -/
theorem rounding_idempotent_unclamped (v g r : ℚ) (hg : 0 < g) :
    (round_down [g] (.scalar v) (.scalar 1) 0 0 = some r →
      (⌊v / g⌋ : ℚ) * g ≤ cap →
      round_down [g] (.scalar r) (.scalar 1) 0 0 = some r) ∧
    (round_nearest [g] (.scalar v) (.scalar 1) 0 0 = some r →
      (if pymod v g < g / 2 ∧ pymod v g > 0 then (⌈v / g⌉ : ℚ) * g - g
       else (⌈v / g⌉ : ℚ) * g) ≤ cap →
      round_nearest [g] (.scalar r) (.scalar 1) 0 0 = some r) := by
  constructor
  · intro h1 h2
    simp only [round_down, IFac.get, Option.bind_eq_bind, Option.some_bind,
      List.getElem?_cons_zero, mul_one, Option.pure_def, Option.some.injEq] at h1
    have hr : r = (⌊v / g⌋ : ℚ) * g := by rw [← h1, min_eq_left h2]
    rw [hr]
    exact round_down_on_grid ⌊v / g⌋ g hg (hr ▸ hr ▸ h2)
  · intro h1 h2
    simp only [round_nearest, IFac.get, Option.bind_eq_bind, Option.some_bind,
      List.getElem?_cons_zero, mul_one, Option.pure_def, Option.some.injEq] at h1
    by_cases hc : pymod v g < g / 2 ∧ pymod v g > 0
    · rw [if_pos hc] at h2
      rw [if_pos hc] at h1
      have hr : r = ((⌈v / g⌉ - 1 : ℤ) : ℚ) * g := by
        rw [← h1, min_eq_left h2]
        push_cast
        ring
      rw [hr]
      refine round_nearest_on_grid (⌈v / g⌉ - 1) g hg ?_
      calc ((⌈v / g⌉ - 1 : ℤ) : ℚ) * g = (⌈v / g⌉ : ℚ) * g - g := by push_cast; ring
        _ ≤ cap := h2
    · rw [if_neg hc] at h2
      rw [if_neg hc] at h1
      have hr : r = ((⌈v / g⌉ : ℤ) : ℚ) * g := by rw [← h1, min_eq_left h2]
      rw [hr]
      exact round_nearest_on_grid ⌈v / g⌉ g hg (hr ▸ h2)

/-- C8 amended witness: round_down at value 1050, granularity 100 is below the
cap and a second application fixes the result 1000. -/
theorem rounding_idempotent_unclamped_witness :
    0 < (100 : ℚ) ∧
    round_down [100] (.scalar 1050) (.scalar 1) 0 0 = some 1000 ∧
    (⌊(1050 : ℚ) / 100⌋ : ℚ) * 100 ≤ cap ∧
    round_down [100] (.scalar 1000) (.scalar 1) 0 0 = some 1000 := by
  have h1 : round_down [100] (.scalar (1050 : ℚ)) (.scalar 1) 0 0 = some 1000 := by
    simp only [round_down, IFac.get, Option.bind_eq_bind, Option.some_bind,
      List.getElem?_cons_zero, mul_one, Option.pure_def, Option.some.injEq]
    rw [min_def]
    norm_num [cap]
  have h2 : (⌊(1050 : ℚ) / 100⌋ : ℚ) * 100 ≤ cap := by norm_num [cap]
  exact ⟨by norm_num, h1,
    h2, (rounding_idempotent_unclamped 1050 100 1000 (by norm_num)).1 h1 h2⟩

/-- The Boolean eligibility test that revLoop applies to one name. -/
def eligibleB (fyear : ℕ) (skip_list : List String) (pdata : List (String × PRec))
    (pname : String) : Bool :=
  match List.lookup pname pdata with
  | some pdict =>
      decide (pdict.indexed = true ∧ fyear ∈ pdict.value_yrs) && decide (pname ∉ skip_list)
  | none => false

theorem revLoop_eq_filter (fyear : ℕ) (skip_list : List String)
    (pdata : List (String × PRec)) :
    ∀ l, revLoop fyear skip_list pdata l = l.filter (eligibleB fyear skip_list pdata) := by
  intro l
  induction l with
  | nil => rfl
  | cons pname rest ih =>
    cases hlk : List.lookup pname pdata with
    | none =>
      simp only [revLoop, hlk, List.filter_cons, eligibleB]
      simpa using ih
    | some pdict =>
      simp only [revLoop, hlk, List.filter_cons, eligibleB]
      by_cases h1 : pdict.indexed = true ∧ fyear ∈ pdict.value_yrs
      · by_cases h2 : pname ∉ skip_list
        · simp [h1, h2, ih]
        · simp [h1, h2, ih]
      · simp [h1, ih]

theorem lookup_some_iff_mem {pdata : List (String × PRec)}
    (hnd : (pdata.map Prod.fst).Nodup) (x : String) (r : PRec) :
    List.lookup x pdata = some r ↔ (x, r) ∈ pdata := by
  induction pdata with
  | nil => simp [List.lookup]
  | cons p rest ih =>
    obtain ⟨k, v⟩ := p
    simp only [List.map_cons, List.nodup_cons] at hnd
    obtain ⟨hk, hnd'⟩ := hnd
    by_cases hx : x = k
    · subst hx
      rw [lookup_cons_self]
      constructor
      · rintro h
        rw [Option.some.injEq] at h
        subst h
        exact List.mem_cons_self _ _
      · intro h
        rcases List.mem_cons.mp h with h | h
        · rw [Prod.mk.injEq] at h
          rw [h.2]
        · exact absurd (List.mem_map.mpr ⟨(x, r), h, rfl⟩) hk
    · rw [lookup_cons_ne x k v rest hx, ih hnd']
      constructor
      · exact fun h => List.mem_cons_of_mem _ h
      · intro h
        rcases List.mem_cons.mp h with h | h
        · exact absurd (congrArg Prod.fst h) hx
        · exact h

/-- C7: reverting_params is a sorted list of names, and a name appears in it
exactly when its record is indexed, has the final year among its value years,
and the name is not in the exclusion set; in particular a non-indexed or
excluded parameter never appears. -/
theorem reverting_params_spec (fyear : ℕ) (skip_list : List String)
    (pdata : List (String × PRec)) (hnd : (pdata.map Prod.fst).Nodup) :
    List.Sorted (fun a b => a ≤ b) (reverting_params fyear skip_list pdata) ∧
    ∀ x, x ∈ reverting_params fyear skip_list pdata ↔
      ∃ r, (x, r) ∈ pdata ∧ r.indexed = true ∧ fyear ∈ r.value_yrs ∧ x ∉ skip_list := by
  have htrans : ∀ a b c : String, (decide (a ≤ b)) = true → (decide (b ≤ c)) = true →
      (decide (a ≤ c)) = true := by
    intro a b c hab hbc
    rw [decide_eq_true_eq] at hab hbc ⊢
    exact le_trans hab hbc
  have htotal : ∀ a b : String, ((decide (a ≤ b)) || (decide (b ≤ a))) = true := by
    intro a b
    rcases le_total a b with h | h
    · simp [h]
    · simp [h]
  constructor
  · rw [reverting_params, revLoop_eq_filter]
    refine List.Pairwise.filter _ ?_
    have hs := List.sorted_mergeSort htrans htotal (pdata.map Prod.fst)
    exact hs.imp (fun h => of_decide_eq_true h)
  · intro x
    rw [reverting_params, revLoop_eq_filter, List.mem_filter, List.mem_mergeSort]
    constructor
    · rintro ⟨-, hel⟩
      rw [eligibleB] at hel
      cases hlk : List.lookup x pdata with
      | none => rw [hlk] at hel; exact absurd hel (by simp)
      | some pdict =>
          rw [hlk] at hel
          rw [Bool.and_eq_true, decide_eq_true_eq, decide_eq_true_eq] at hel
          exact ⟨pdict, (lookup_some_iff_mem hnd x pdict).mp hlk, hel.1.1, hel.1.2, hel.2⟩
    · rintro ⟨r, hmem, hind, hyr, hskip⟩
      refine ⟨List.mem_map.mpr ⟨(x, r), hmem, rfl⟩, ?_⟩
      rw [eligibleB, (lookup_some_iff_mem hnd x r).mpr hmem]
      rw [Bool.and_eq_true, decide_eq_true_eq, decide_eq_true_eq]
      exact ⟨⟨hind, hyr⟩, hskip⟩

/-- C7 witness: the eligibility filter applied to a concrete one-entry table. -/
theorem reverting_params_spec_witness :
    (([("STD", (⟨true, [], [2026], [1], none⟩ : PRec))].map Prod.fst).Nodup) ∧
    List.Sorted (fun a b => a ≤ b)
      (reverting_params 2026 ["_II_brk7"] [("STD", ⟨true, [], [2026], [1], none⟩)]) :=
  ⟨by simp,
    (reverting_params_spec 2026 ["_II_brk7"] [("STD", ⟨true, [], [2026], [1], none⟩)]
      (by simp)).1⟩

theorem finalAux_none_of_short (syear : ℕ) (irate : List ℚ) :
    ∀ n year acc, syear ≤ year → 1 ≤ n → irate.length + syear ≤ year + n - 1 →
      finalAux syear irate year acc n = none := by
  intro n
  induction n with
  | zero => intro year acc _ h1 _; omega
  | succ n ih =>
    intro year acc hsy _ hlen
    rcases Nat.eq_zero_or_pos n with rfl | hn
    · have hidx : irate.length ≤ year - syear := by omega
      simp [finalAux, List.getElem?_eq_none hidx]
    · cases hr : irate[year - syear]? with
      | none => simp [finalAux, hr]
      | some r =>
        simp only [finalAux, hr, Option.bind_eq_bind, Option.some_bind]
        exact ih (year + 1) (acc * (1 + r)) (by omega) hn (by omega)

/-- A parameter record used to exercise the script on an empty rate series:
indexed, with a known value for every year 2013..2026. -/
def cex9rec : PRec :=
  ⟨true,
   [.scalar 0, .scalar 1, .scalar 2, .scalar 3, .scalar 4, .scalar 5, .scalar 6,
    .scalar 7, .scalar 8, .scalar 9, .scalar 10, .scalar 11, .scalar 12, .scalar 13],
   [2026], [1], none⟩

/-- The ppp.old snapshot the script writes for cex9rec. -/
def cex9old : List (String × List (ℕ × PVal)) :=
  [("p", [(2017, .scalar 4), (2018, .scalar 5), (2019, .scalar 6), (2020, .scalar 7),
          (2021, .scalar 8), (2022, .scalar 9), (2023, .scalar 10), (2024, .scalar 11),
          (2025, .scalar 12), (2026, .scalar 13)])]

theorem cex9_params : reverting_params 2026 [] [("p", cex9rec)] = ["p"] := by
  rw [reverting_params]
  simp only [List.map_cons, List.map_nil, List.mergeSort_singleton]
  rfl

/-- C9 counterexample: on an inflation-rate series too short for the window
(here empty), the run does NOT abort before any output is written: the full
ppp.old snapshot is produced, and only the projected ppp.new part is missing. -/
theorem empty_rates_still_write_old :
    runScript 2013 2017 2019 2026 [] [("p", cex9rec)] [] = some (cex9old, none) ∧
    cex9old ≠ [] := by
  constructor
  · simp only [runScript, cex9_params]
    rfl
  · simp [cex9old]

/-- C9 amended: when the inflation-rate series has fewer entries than required
to cover [prior_year, final_year), the final-factor construction fails with an
uncaught out-of-range access and no projected output is produced; but the run
aborts only after the historical snapshot (ppp.old) has been written, not
before any output. -/
theorem short_rates_abort_after_old (syear pyear byear fyear : ℕ)
    (skip_list : List String) (pdata : List (String × PRec)) (irate : List ℚ)
    (old : List (String × List (ℕ × PVal)))
    (hsp : syear ≤ pyear) (hpf : pyear < fyear)
    (hshort : irate.length + syear < fyear)
    (hold : writeOld syear pyear fyear pdata (reverting_params fyear skip_list pdata)
      = some old) :
    runScript syear pyear byear fyear skip_list pdata irate = some (old, none) := by
  have hff : final_ifactor syear pyear fyear irate = none := by
    rw [final_ifactor]
    exact finalAux_none_of_short syear irate (fyear - pyear) pyear 1 hsp (by omega) (by omega)
  simp only [runScript, hold, hff, Option.bind_eq_bind, Option.some_bind, Option.none_bind,
    Option.pure_def]

/-- C9 amended witness: the concrete empty-rates run. -/
theorem short_rates_abort_after_old_witness :
    2013 ≤ 2017 ∧ 2017 < 2026 ∧ ([] : List ℚ).length + 2013 < 2026 ∧
    writeOld 2013 2017 2026 [("p", cex9rec)] (reverting_params 2026 [] [("p", cex9rec)])
      = some cex9old ∧
    runScript 2013 2017 2019 2026 [] [("p", cex9rec)] [] = some (cex9old, none) := by
  have hold : writeOld 2013 2017 2026 [("p", cex9rec)]
      (reverting_params 2026 [] [("p", cex9rec)]) = some cex9old := by
    rw [cex9_params]
    rfl
  exact ⟨by norm_num, by norm_num, by norm_num, hold,
    short_rates_abort_after_old 2013 2017 2019 2026 [] [("p", cex9rec)] [] cex9old
      (by norm_num) (by norm_num) (by norm_num) hold⟩

theorem getLast?_cons_of_some {α : Type} (a x : α) (l : List α) (h : l.getLast? = some x) :
    (a :: l).getLast? = some x := by
  cases l with
  | nil => simp at h
  | cons b t => rw [List.getLast?_cons_cons]; exact h

theorem copyAux_getLast (syear : ℕ) (vals : List PVal) :
    ∀ n year out, copyAux syear vals year n = some out → 1 ≤ n →
      ∃ v, out.getLast? = some (year + n - 1, v) ∧ vals[year + n - 1 - syear]? = some v := by
  intro n
  induction n with
  | zero => intro year out _ h; omega
  | succ n ih =>
    intro year out hout _
    simp only [copyAux, Option.bind_eq_bind, Option.bind_eq_some, Option.pure_def,
      Option.some.injEq] at hout
    obtain ⟨v, hv, rest, hrest, hout⟩ := hout
    subst hout
    rcases Nat.eq_zero_or_pos n with rfl | hn
    · simp only [copyAux, Option.some.injEq] at hrest
      subst hrest
      exact ⟨v, by simp, by simpa using hv⟩
    · obtain ⟨w, hw1, hw2⟩ := ih (year + 1) rest hrest hn
      have harith : year + 1 + n - 1 = year + (n + 1) - 1 := by omega
      rw [harith] at hw1 hw2
      exact ⟨w, getLast?_cons_of_some _ _ _ hw1, hw2⟩

theorem copyAux_year_lt (syear : ℕ) (vals : List PVal) :
    ∀ n year out, copyAux syear vals year n = some out →
      ∀ z w, (z, w) ∈ out → z < year + n := by
  intro n
  induction n with
  | zero =>
    intro year out hout z w hz
    simp only [copyAux, Option.some.injEq] at hout
    subst hout
    simp at hz
  | succ n ih =>
    intro year out hout z w hz
    simp only [copyAux, Option.bind_eq_bind, Option.bind_eq_some, Option.pure_def,
      Option.some.injEq] at hout
    obtain ⟨v, _, rest, hrest, hout⟩ := hout
    subst hout
    rcases List.mem_cons.mp hz with h | h
    · rw [Prod.mk.injEq] at h
      omega
    · have := ih (year + 1) rest hrest z w h
      omega

theorem intermAux_stale (rt : List ℚ) (s : String) (ifd : List (ℕ × ℚ)) (b : ℚ)
    (hs1 : s ≠ "down") (hs2 : s ≠ "nearest") :
    ∀ n year prev, intermAux rt (some s) ifd (.scalar b) year prev n =
      some ((List.range' year n).map (fun z => (z, prev))) := by
  intro n
  induction n with
  | zero => intro year prev; rfl
  | succ n ih =>
    intro year prev
    have hval : intermValue rt (some s) ifd (.scalar b) year prev = some prev := by
      simp [intermValue, hs1, hs2]
    simp only [intermAux, hval, Option.bind_eq_bind, Option.some_bind, ih,
      List.range'_succ, List.map_cons, Option.pure_def]

/-- C10: on a scalar parameter whose record declares a round_dir that is
neither 'down' nor 'nearest', the intermediate-year dispatch assigns nothing,
so every intermediate year in (base_year, final_year) is written with the
stale base-year historical value rather than a computed projection. -/
theorem invalid_round_dir_writes_stale_base (syear pyear byear fyear : ℕ)
    (ifd : List (ℕ × ℚ)) (ff : ℚ) (r : PRec) (lines : List (ℕ × PVal)) (s : String)
    (b : ℚ) (hpb : pyear < byear)
    (hrd : r.round_dir = some s) (hs1 : s ≠ "down") (hs2 : s ≠ "nearest")
    (hb : r.value[byear - syear]? = some (.scalar b))
    (hproj : projectParam syear pyear byear fyear ifd ff r = some lines) :
    (∀ y, byear < y → y < fyear → (y, PVal.scalar b) ∈ lines) ∧
    (∀ y v, byear < y → y < fyear → (y, v) ∈ lines → v = PVal.scalar b) := by
  simp only [projectParam, Option.bind_eq_bind, Option.bind_eq_some, Option.pure_def,
    Option.some.injEq] at hproj
  obtain ⟨v0, hv0, copies, hcopies, bv, hbv, inter, hinter, pv, hpv, fv, hfv, hlines⟩ := hproj
  rw [hb, Option.some.injEq] at hbv
  subst hbv
  obtain ⟨w, hw1, hw2⟩ := copyAux_getLast syear r.value (byear - pyear) (pyear + 1) copies
    hcopies (by omega)
  have harith : pyear + 1 + (byear - pyear) - 1 = byear := by omega
  rw [harith] at hw1 hw2
  rw [hb, Option.some.injEq] at hw2
  subst hw2
  rw [hw1] at hinter
  rw [hrd, intermAux_stale r.round_to s ifd b hs1 hs2] at hinter
  rw [Option.some.injEq] at hinter
  subst hinter
  subst hlines
  constructor
  · intro y hy1 hy2
    have hmem : (y, PVal.scalar b) ∈
        (List.range' (byear + 1) (fyear - byear - 1)).map
          (fun z => (z, PVal.scalar b)) :=
      List.mem_map.mpr ⟨y, List.mem_range'_1.mpr ⟨by omega, by omega⟩, rfl⟩
    exact List.mem_cons_of_mem _ (List.mem_append_left _ (List.mem_append_right _ hmem))
  · intro y v hy1 hy2 hmem
    rcases List.mem_cons.mp hmem with h | h
    · rw [Prod.mk.injEq] at h
      omega
    · rcases List.mem_append.mp h with h | h
      · rcases List.mem_append.mp h with h | h
        · have := copyAux_year_lt syear r.value (byear - pyear) (pyear + 1) copies hcopies y v h
          omega
        · obtain ⟨z, _, hz⟩ := List.mem_map.mp h
          rw [Prod.mk.injEq] at hz
          exact hz.2.symm
      · simp only [List.mem_singleton, Prod.mk.injEq] at h
        omega

/-- C10 witness: a concrete scalar record with round_dir 'up' keeps the
base-year value 3 for the intermediate year 3. -/
theorem invalid_round_dir_writes_stale_base_witness :
    (1 : ℕ) < 2 ∧
    (PRec.mk true [.scalar 1, .scalar 2, .scalar 3, .scalar 9, .scalar 9] [4] [1]
      (some "up")).round_dir = some "up" ∧
    ("up" : String) ≠ "down" ∧ ("up" : String) ≠ "nearest" ∧
    (PRec.mk true [.scalar 1, .scalar 2, .scalar 3, .scalar 9, .scalar 9] [4] [1]
      (some "up")).value[(2 : ℕ) - 0]? = some (.scalar 3) ∧
    projectParam 0 1 2 4 [] 0
      (PRec.mk true [.scalar 1, .scalar 2, .scalar 3, .scalar 9, .scalar 9] [4] [1]
        (some "up"))
      = some [(1, .scalar 2), (2, .scalar 3), (3, .scalar 3), (4, .scalar 3)] ∧
    ((3 : ℕ), PVal.scalar 3) ∈
      [((1 : ℕ), PVal.scalar 2), (2, .scalar 3), (3, .scalar 3), (4, .scalar 3)] := by
  refine ⟨by norm_num, rfl, by decide, by decide, rfl, rfl, ?_⟩
  exact (invalid_round_dir_writes_stale_base 0 1 2 4 [] 0
    (PRec.mk true [.scalar 1, .scalar 2, .scalar 3, .scalar 9, .scalar 9] [4] [1]
      (some "up"))
    [(1, .scalar 2), (2, .scalar 3), (3, .scalar 3), (4, .scalar 3)] "up" 3
    (by norm_num) rfl (by decide) (by decide) rfl rfl).1 3 (by norm_num) (by norm_num)

theorem round_down_le_cap (rt : List ℚ) (val : PVal) (fac : IFac) (idx year : ℕ) (q : ℚ)
    (h : round_down rt val fac idx year = some q) : q ≤ cap := by
  cases val with
  | vec vs =>
    simp only [round_down, Option.bind_eq_bind, Option.bind_eq_some, Option.pure_def,
      Option.some.injEq] at h
    obtain ⟨v, _, f, _, g, _, h⟩ := h
    rw [← h]
    exact min_le_right _ _
  | scalar v =>
    simp only [round_down, Option.bind_eq_bind, Option.bind_eq_some, Option.pure_def,
      Option.some.injEq] at h
    obtain ⟨f, _, g, _, h⟩ := h
    rw [← h]
    exact min_le_right _ _

theorem round_nearest_le_cap (rt : List ℚ) (val : PVal) (fac : IFac) (idx year : ℕ) (q : ℚ)
    (h : round_nearest rt val fac idx year = some q) : q ≤ cap := by
  cases val with
  | vec vs =>
    simp only [round_nearest, Option.bind_eq_bind, Option.bind_eq_some, Option.pure_def,
      Option.some.injEq] at h
    obtain ⟨v, _, f, _, g, _, h⟩ := h
    rw [← h]
    exact min_le_right _ _
  | scalar v =>
    simp only [round_nearest, Option.bind_eq_bind, Option.bind_eq_some, Option.pure_def,
      Option.some.injEq] at h
    obtain ⟨f, _, g, _, h⟩ := h
    rw [← h]
    exact min_le_right _ _

theorem intermCol_le_cap (rt : List ℚ) (rd : Option String) (ifd : List (ℕ × ℚ))
    (bs : List ℚ) (year idx : ℕ) (stale : Option ℚ) (q : ℚ)
    (hrd : rd = none ∨ rd = some "down" ∨ rd = some "nearest")
    (h : intermCol rt rd ifd bs year idx stale = some q) : q ≤ cap := by
  rcases hrd with hrd | hrd | hrd <;> subst hrd
  · simp only [intermCol, Option.bind_eq_bind, Option.bind_eq_some, Option.pure_def,
      Option.some.injEq] at h
    obtain ⟨b, _, f, _, h⟩ := h
    rw [← h]
    exact min_le_left _ _
  · rw [intermCol, if_pos rfl] at h
    exact round_down_le_cap _ _ _ _ _ _ h
  · rw [intermCol, if_neg (by decide), if_pos rfl] at h
    exact round_nearest_le_cap _ _ _ _ _ _ h

theorem intermCols_le_cap (rt : List ℚ) (rd : Option String) (ifd : List (ℕ × ℚ))
    (bs : List ℚ) (year : ℕ)
    (hrd : rd = none ∨ rd = some "down" ∨ rd = some "nearest") :
    ∀ idxs stale out, intermCols rt rd ifd bs year stale idxs = some out →
      ∀ q ∈ out, q ≤ cap := by
  intro idxs
  induction idxs with
  | nil =>
    intro stale out h q hq
    simp only [intermCols, Option.some.injEq] at h
    subst h
    simp at hq
  | cons idx rest ih =>
    intro stale out h q hq
    simp only [intermCols, Option.bind_eq_bind, Option.bind_eq_some, Option.pure_def,
      Option.some.injEq] at h
    obtain ⟨vr, hvr, more, hmore, h⟩ := h
    subst h
    rcases List.mem_cons.mp hq with rfl | hq
    · exact intermCol_le_cap rt rd ifd bs year idx stale q hrd hvr
    · exact ih (some vr) more hmore q hq

theorem intermValue_le_cap (rt : List ℚ) (rd : Option String) (ifd : List (ℕ × ℚ))
    (bvalue : PVal) (year : ℕ) (prev out : PVal)
    (hrd : rd = none ∨ rd = some "down" ∨ rd = some "nearest")
    (h : intermValue rt rd ifd bvalue year prev = some out) : scalarLe cap out := by
  cases bvalue with
  | vec bs =>
    simp only [intermValue, Option.bind_eq_bind, Option.bind_eq_some, Option.pure_def,
      Option.some.injEq] at h
    obtain ⟨vs, hvs, h⟩ := h
    subst h
    exact intermCols_le_cap rt rd ifd bs year hrd _ none vs hvs
  | scalar b =>
    rcases hrd with hrd | hrd | hrd <;> subst hrd
    · simp only [intermValue, Option.bind_eq_bind, Option.bind_eq_some, Option.pure_def,
        Option.some.injEq] at h
      obtain ⟨f, _, h⟩ := h
      subst h
      exact min_le_left _ _
    · rw [intermValue, if_pos rfl, Option.map_eq_some'] at h
      obtain ⟨q, hq, h⟩ := h
      subst h
      exact round_down_le_cap _ _ _ _ _ _ hq
    · rw [intermValue, if_neg (by decide), if_pos rfl, Option.map_eq_some'] at h
      obtain ⟨q, hq, h⟩ := h
      subst h
      exact round_nearest_le_cap _ _ _ _ _ _ hq

theorem intermAux_le_cap (rt : List ℚ) (rd : Option String) (ifd : List (ℕ × ℚ))
    (bvalue : PVal)
    (hrd : rd = none ∨ rd = some "down" ∨ rd = some "nearest") :
    ∀ n year prev out, intermAux rt rd ifd bvalue year prev n = some out →
      ∀ yv ∈ out, scalarLe cap yv.2 := by
  intro n
  induction n with
  | zero =>
    intro year prev out h yv hyv
    simp only [intermAux, Option.some.injEq] at h
    subst h
    simp at hyv
  | succ n ih =>
    intro year prev out h yv hyv
    simp only [intermAux, Option.bind_eq_bind, Option.bind_eq_some, Option.pure_def,
      Option.some.injEq] at h
    obtain ⟨v, hv, rest, hrest, h⟩ := h
    subst h
    rcases List.mem_cons.mp hyv with rfl | hyv
    · exact intermValue_le_cap rt rd ifd bvalue year prev v hrd hv
    · exact ih (year + 1) v rest hrest yv hyv

theorem finalCol_le_cap (rt : List ℚ) (rd : Option String) (ps : List ℚ) (ff : ℚ)
    (idx : ℕ) (q : ℚ)
    (hrd : rd = none ∨ rd = some "down" ∨ rd = some "nearest")
    (h : finalCol rt rd ps ff idx = some q) : q ≤ cap := by
  rcases hrd with hrd | hrd | hrd <;> subst hrd
  · simp only [finalCol, Option.bind_eq_bind, Option.bind_eq_some, Option.pure_def,
      Option.some.injEq] at h
    obtain ⟨p, _, h⟩ := h
    rw [← h]
    exact min_le_left _ _
  · rw [finalCol, if_pos rfl] at h
    exact round_down_le_cap _ _ _ _ _ _ h
  · rw [finalCol, if_neg (by decide), if_pos rfl] at h
    exact round_nearest_le_cap _ _ _ _ _ _ h

theorem finalCols_le_cap (rt : List ℚ) (rd : Option String) (ps : List ℚ) (ff : ℚ)
    (hrd : rd = none ∨ rd = some "down" ∨ rd = some "nearest") :
    ∀ idxs out, finalCols rt rd ps ff idxs = some out → ∀ q ∈ out, q ≤ cap := by
  intro idxs
  induction idxs with
  | nil =>
    intro out h q hq
    simp only [finalCols, Option.some.injEq] at h
    subst h
    simp at hq
  | cons idx rest ih =>
    intro out h q hq
    simp only [finalCols, Option.bind_eq_bind, Option.bind_eq_some, Option.pure_def,
      Option.some.injEq] at h
    obtain ⟨v, hv, more, hmore, h⟩ := h
    subst h
    rcases List.mem_cons.mp hq with rfl | hq
    · exact finalCol_le_cap rt rd ps ff idx q hrd hv
    · exact ih more hmore q hq

theorem finalValue_le_cap (rt : List ℚ) (rd : Option String) (pvalue : PVal) (ff : ℚ)
    (prev out : PVal)
    (hrd : rd = none ∨ rd = some "down" ∨ rd = some "nearest")
    (h : finalValue rt rd pvalue ff prev = some out) : scalarLe cap out := by
  cases pvalue with
  | vec ps =>
    simp only [finalValue, Option.bind_eq_bind, Option.bind_eq_some, Option.pure_def,
      Option.some.injEq] at h
    obtain ⟨vs, hvs, h⟩ := h
    subst h
    exact finalCols_le_cap rt rd ps ff hrd _ vs hvs
  | scalar p =>
    rcases hrd with hrd | hrd | hrd <;> subst hrd
    · simp only [finalValue, Option.some.injEq] at h
      subst h
      exact min_le_left _ _
    · rw [finalValue, if_pos rfl, Option.map_eq_some'] at h
      obtain ⟨q, hq, h⟩ := h
      subst h
      exact round_down_le_cap _ _ _ _ _ _ hq
    · rw [finalValue, if_neg (by decide), if_pos rfl, Option.map_eq_some'] at h
      obtain ⟨q, hq, h⟩ := h
      subst h
      exact round_nearest_le_cap _ _ _ _ _ _ hq

/-- C6: every value the projection computes for a year after the base year
(intermediate or final, scalar or multi-column, under a declared 'down' or
'nearest' rounding or the default rounding) is at most the 9e99 sentinel:
values above it are clamped rather than raising an error. -/
theorem projection_values_capped (syear pyear byear fyear : ℕ) (ifd : List (ℕ × ℚ))
    (ff : ℚ) (r : PRec) (lines : List (ℕ × PVal))
    (hrd : r.round_dir = none ∨ r.round_dir = some "down" ∨ r.round_dir = some "nearest")
    (hpb : pyear ≤ byear)
    (hproj : projectParam syear pyear byear fyear ifd ff r = some lines) :
    ∀ yv ∈ lines, byear < yv.1 → scalarLe cap yv.2 := by
  simp only [projectParam, Option.bind_eq_bind, Option.bind_eq_some, Option.pure_def,
    Option.some.injEq] at hproj
  obtain ⟨v0, hv0, copies, hcopies, bv, hbv, inter, hinter, pv, hpv, fv, hfv, hlines⟩ := hproj
  subst hlines
  rintro ⟨y, v⟩ hmem hy
  rcases List.mem_cons.mp hmem with h | h
  · rw [Prod.mk.injEq] at h
    omega
  · rcases List.mem_append.mp h with h | h
    · rcases List.mem_append.mp h with h | h
      · have := copyAux_year_lt syear r.value (byear - pyear) (pyear + 1) copies hcopies y v h
        omega
      · exact intermAux_le_cap r.round_to r.round_dir ifd bv hrd (fyear - byear - 1)
          (byear + 1) _ inter hinter (y, v) h
    · simp only [List.mem_singleton, Prod.mk.injEq] at h
      obtain ⟨h1, h2⟩ := h
      rw [h2]
      exact finalValue_le_cap r.round_to r.round_dir pv ff _ fv hrd hfv

/-- C6 witness: a concrete scalar run with default rounding. -/
theorem projection_values_capped_witness :
    ((PRec.mk true [.scalar 1, .scalar 2, .scalar 3, .scalar 9] [3] [1] none).round_dir
        = none ∨
      (PRec.mk true [.scalar 1, .scalar 2, .scalar 3, .scalar 9] [3] [1] none).round_dir
        = some "down" ∨
      (PRec.mk true [.scalar 1, .scalar 2, .scalar 3, .scalar 9] [3] [1] none).round_dir
        = some "nearest") ∧
    (1 : ℕ) ≤ 2 ∧
    projectParam 0 1 2 3 [] 1
      (PRec.mk true [.scalar 1, .scalar 2, .scalar 3, .scalar 9] [3] [1] none)
      = some [(1, .scalar 2), (2, .scalar 3),
              (3, .scalar (min cap (pyRound (2 * 1) 0)))] ∧
    ∀ yv ∈ [((1 : ℕ), PVal.scalar 2), (2, .scalar 3),
            (3, .scalar (min cap (pyRound (2 * 1) 0)))],
      2 < yv.1 → scalarLe cap yv.2 :=
  ⟨Or.inl rfl, by norm_num, rfl,
    projection_values_capped 0 1 2 3 [] 1
      (PRec.mk true [.scalar 1, .scalar 2, .scalar 3, .scalar 9] [3] [1] none)
      [(1, .scalar 2), (2, .scalar 3), (3, .scalar (min cap (pyRound (2 * 1) 0)))]
      (Or.inl rfl) (by norm_num) rfl⟩

theorem finalAux_eq_prod (syear : ℕ) (irate : List ℚ) :
    ∀ n year acc, (∀ k, k < n → year + k - syear < irate.length) →
      finalAux syear irate year acc n =
        some (acc * ∏ y ∈ Finset.Ico year (year + n), (1 + irate.getD (y - syear) 0)) := by
  intro n
  induction n with
  | zero =>
    intro year acc _
    simp [finalAux]
  | succ n ih =>
    intro year acc hcov
    have hidx : year - syear < irate.length := by
      have := hcov 0 (by omega)
      omega
    have hr : irate[year - syear]? = some irate[year - syear] :=
      List.getElem?_eq_getElem hidx
    have hgd : irate.getD (year - syear) 0 = irate[year - syear] := by
      rw [List.getD_eq_getElem?_getD, hr, Option.getD_some]
    simp only [finalAux, hr, Option.bind_eq_bind, Option.some_bind]
    rw [ih (year + 1) (acc * (1 + irate[year - syear]))
      (fun k hk => by have := hcov (k + 1) (by omega); omega)]
    rw [Finset.prod_eq_prod_Ico_succ_bot (a := year) (b := year + (n + 1)) (by omega)]
    rw [hgd]
    have harith : year + 1 + n = year + (n + 1) := by omega
    rw [harith, mul_assoc]

theorem final_ifactor_eq_prod (syear pyear fyear : ℕ) (irate : List ℚ)
    (hpf : pyear ≤ fyear)
    (hcov : ∀ y, pyear ≤ y → y < fyear → y - syear < irate.length) :
    final_ifactor syear pyear fyear irate =
      some (∏ y ∈ Finset.Ico pyear fyear, (1 + irate.getD (y - syear) 0)) := by
  rw [final_ifactor, finalAux_eq_prod syear irate (fyear - pyear) pyear 1
    (fun k hk => by have := hcov (pyear + k) (by omega) (by omega); omega)]
  have harith : pyear + (fyear - pyear) = fyear := by omega
  rw [harith, one_mul]

theorem finalCols_sound (rt : List ℚ) (rd : Option String) (ps : List ℚ) (ff : ℚ) :
    ∀ idxs vs, finalCols rt rd ps ff idxs = some vs →
      vs.length = idxs.length ∧
      ∀ j, j < idxs.length → vs[j]? = finalCol rt rd ps ff (idxs.getD j 0) := by
  intro idxs
  induction idxs with
  | nil =>
    intro vs h
    simp only [finalCols, Option.some.injEq] at h
    subst h
    exact ⟨rfl, fun j hj => absurd hj (by simp)⟩
  | cons idx rest ih =>
    intro vs h
    simp only [finalCols, Option.bind_eq_bind, Option.bind_eq_some, Option.pure_def,
      Option.some.injEq] at h
    obtain ⟨q, hq, more, hmore, h⟩ := h
    subst h
    obtain ⟨hlen, hpt⟩ := ih more hmore
    refine ⟨by simp [hlen], ?_⟩
    intro j hj
    cases j with
    | zero =>
      simp only [List.getElem?_cons_zero, List.getD_cons_zero]
      rw [hq]
    | succ j' =>
      simp only [List.getElem?_cons_succ, List.getD_cons_succ]
      exact hpt j' (by simpa using hj)

theorem finalCol_none_eq (rt : List ℚ) (ps : List ℚ) (ff : ℚ) (idx : ℕ)
    (hidx : idx < ps.length) :
    finalCol rt none ps ff idx = some (min cap (pyRound (ps.getD idx 0 * ff) 0)) := by
  have hpe : ps[idx]? = some ps[idx] := List.getElem?_eq_getElem hidx
  have hpd : ps.getD idx 0 = ps[idx] := by
    rw [List.getD_eq_getElem?_getD, hpe, Option.getD_some]
  simp only [finalCol, hpe, Option.bind_eq_bind, Option.some_bind, Option.pure_def, hpd]

theorem finalCol_down_eq (rt : List ℚ) (ps : List ℚ) (ff g : ℚ) (idx : ℕ)
    (hidx : idx < ps.length) (hg : rt[idx]? = some g) :
    finalCol rt (some "down") ps ff idx
      = some (RoundDownSpec (ps.getD idx 0 * ff) g) := by
  have hpe : ps[idx]? = some ps[idx] := List.getElem?_eq_getElem hidx
  have hpd : ps.getD idx 0 = ps[idx] := by
    rw [List.getD_eq_getElem?_getD, hpe, Option.getD_some]
  rw [finalCol, if_pos rfl]
  simp only [round_down, IFac.get, hpe, hg, Option.bind_eq_bind, Option.some_bind,
    Option.pure_def, Option.some.injEq, RoundDownSpec, hpd]

theorem finalCol_nearest_eq (rt : List ℚ) (ps : List ℚ) (ff g : ℚ) (idx : ℕ)
    (hidx : idx < ps.length) (hg : rt[idx]? = some g) :
    finalCol rt (some "nearest") ps ff idx
      = some (RoundNearestSpec (ps.getD idx 0 * ff) g) := by
  have hpe : ps[idx]? = some ps[idx] := List.getElem?_eq_getElem hidx
  have hpd : ps.getD idx 0 = ps[idx] := by
    rw [List.getD_eq_getElem?_getD, hpe, Option.getD_some]
  rw [finalCol, if_neg (by decide), if_pos rfl]
  simp only [round_nearest, IFac.get, hpe, hg, Option.bind_eq_bind, Option.some_bind,
    Option.pure_def, Option.some.injEq, RoundNearestSpec, hpd]
  by_cases hc : pymod (ps[idx] * ff) g < g / 2 ∧ pymod (ps[idx] * ff) g > 0
  · rw [if_pos hc, if_pos (and_comm.mp hc), min_assoc, min_self]
  · rw [if_neg hc, if_neg (fun h => hc (and_comm.mp h))]

/-- C2: for every eligible parameter, scalar or multi-column, the final-year
entry of its projected block is computed from the parameter's PRIOR-year
value (record.value[prior_year]) scaled by the final factor, which equals the
product of (1 + rate[y]) over y in [prior_year, final_year); the scaled value
(per column for multi-column values, with the column's round_to granularity)
is then rounded by the declared rounding policy (round down, round to
nearest), or rounded to the nearest integer when no round_dir is declared,
and clamped at 9e99. -/
theorem final_year_uses_prior_value (syear pyear byear fyear : ℕ) (irate : List ℚ)
    (ifd : List (ℕ × ℚ)) (ff : ℚ) (r : PRec) (lines : List (ℕ × PVal))
    (hpf : pyear ≤ fyear)
    (hcov : ∀ y, pyear ≤ y → y < fyear → y - syear < irate.length)
    (hff : final_ifactor syear pyear fyear irate = some ff)
    (hproj : projectParam syear pyear byear fyear ifd ff r = some lines) :
    ff = ∏ y ∈ Finset.Ico pyear fyear, (1 + irate.getD (y - syear) 0) ∧
    (∀ pv, r.value[pyear - syear]? = some (.scalar pv) →
      (r.round_dir = none →
        lines.getLast? = some (fyear, .scalar (min cap (pyRound (pv * ff) 0)))) ∧
      (∀ g, r.round_dir = some "down" → r.round_to[0]? = some g →
        lines.getLast? = some (fyear, .scalar (RoundDownSpec (pv * ff) g))) ∧
      (∀ g, r.round_dir = some "nearest" → r.round_to[0]? = some g →
        lines.getLast? = some (fyear, .scalar (RoundNearestSpec (pv * ff) g)))) ∧
    (∀ ps, r.value[pyear - syear]? = some (.vec ps) →
      ∃ vs, lines.getLast? = some (fyear, .vec vs) ∧ vs.length = ps.length ∧
        ∀ idx, idx < ps.length →
          (r.round_dir = none →
            vs[idx]? = some (min cap (pyRound (ps.getD idx 0 * ff) 0))) ∧
          (∀ g, r.round_dir = some "down" → r.round_to[idx]? = some g →
            vs[idx]? = some (RoundDownSpec (ps.getD idx 0 * ff) g)) ∧
          (∀ g, r.round_dir = some "nearest" → r.round_to[idx]? = some g →
            vs[idx]? = some (RoundNearestSpec (ps.getD idx 0 * ff) g))) := by
  have hprod := final_ifactor_eq_prod syear pyear fyear irate hpf hcov
  rw [hff, Option.some.injEq] at hprod
  simp only [projectParam, Option.bind_eq_bind, Option.bind_eq_some, Option.pure_def,
    Option.some.injEq] at hproj
  obtain ⟨v0, hv0, copies, hcopies, bv, hbv, inter, hinter, pvv, hpvv, fv, hfv, hlines⟩ :=
    hproj
  have hlast : lines.getLast? = some (fyear, fv) := by
    rw [← hlines]
    exact getLast?_cons_of_some _ _ _ (List.getLast?_concat _)
  refine ⟨hprod, ?_, ?_⟩
  · intro pv hpv
    rw [hpv, Option.some.injEq] at hpvv
    subst hpvv
    refine ⟨?_, ?_, ?_⟩
    · intro hrd
      rw [hrd, finalValue, Option.some.injEq] at hfv
      rw [hlast, ← hfv]
    · intro g hrd hg
      rw [hrd, finalValue, if_pos rfl] at hfv
      rw [Option.map_eq_some'] at hfv
      obtain ⟨q, hq, hfv⟩ := hfv
      simp only [round_down, IFac.get, Option.bind_eq_bind, Option.some_bind, hg,
        Option.pure_def, Option.some.injEq] at hq
      rw [hlast, ← hfv, ← hq, RoundDownSpec]
    · intro g hrd hg
      rw [hrd, finalValue, if_neg (by decide), if_pos rfl] at hfv
      rw [Option.map_eq_some'] at hfv
      obtain ⟨q, hq, hfv⟩ := hfv
      simp only [round_nearest, IFac.get, Option.bind_eq_bind, Option.some_bind, hg,
        Option.pure_def, Option.some.injEq] at hq
      rw [hlast, ← hfv, ← hq, RoundNearestSpec]
      have hcomm : (pymod (pv * ff) g < g / 2 ∧ pymod (pv * ff) g > 0) ↔
          (pymod (pv * ff) g > 0 ∧ pymod (pv * ff) g < g / 2) := and_comm
      rw [if_congr hcomm rfl rfl]
  · intro ps hps
    rw [hps, Option.some.injEq] at hpvv
    subst hpvv
    simp only [finalValue, Option.bind_eq_bind, Option.bind_eq_some, Option.pure_def,
      Option.some.injEq] at hfv
    obtain ⟨vs, hvs, hfv⟩ := hfv
    obtain ⟨hlen, hpt⟩ := finalCols_sound r.round_to r.round_dir ps ff _ vs hvs
    refine ⟨vs, by rw [hlast, ← hfv], by rw [hlen, List.length_range], ?_⟩
    intro idx hidx
    have hrg : (List.range ps.length).getD idx 0 = idx := by
      rw [List.getD_eq_getElem?_getD, List.getElem?_range hidx, Option.getD_some]
    have hpt' := hpt idx (by rw [List.length_range]; exact hidx)
    rw [hrg] at hpt'
    refine ⟨?_, ?_, ?_⟩
    · intro hrd
      rw [hpt', hrd]
      exact finalCol_none_eq r.round_to ps ff idx hidx
    · intro g hrd hg
      rw [hpt', hrd]
      exact finalCol_down_eq r.round_to ps ff g idx hidx hg
    · intro g hrd hg
      rw [hpt', hrd]
      exact finalCol_nearest_eq r.round_to ps ff g idx hidx hg

/-- A two-column parameter record used to exercise the final-year projection
on a multi-column value. -/
def c2vecRec : PRec :=
  ⟨true, [.vec [5, 6], .vec [100, 200], .vec [110, 220], .vec [9, 9]], [3], [1, 10], none⟩

/-- The projected block the script computes for c2vecRec over the window
prior_year 1, base_year 2, final_year 3 with zero rates. -/
def c2vecLines : List (ℕ × PVal) :=
  [(1, .vec [100, 200]), (2, .vec [110, 220]),
   (3, .vec [min cap (pyRound (100 * (1 * (1 + 0) * (1 + 0))) 0),
             min cap (pyRound (200 * (1 * (1 + 0) * (1 + 0))) 0)])]

/-- C2 witness: a concrete multi-column run with default rounding over the
window prior_year 1, base_year 2, final_year 3 with zero rates. -/
theorem final_year_uses_prior_value_witness :
    (1 : ℕ) ≤ 3 ∧
    (∀ y, 1 ≤ y → y < 3 → y - 0 < ([0, 0, 0] : List ℚ).length) ∧
    final_ifactor 0 1 3 [0, 0, 0] = some (1 * (1 + 0) * (1 + 0)) ∧
    projectParam 0 1 2 3 [] (1 * (1 + 0) * (1 + 0)) c2vecRec = some c2vecLines ∧
    c2vecRec.value[(1 : ℕ) - 0]? = some (.vec [100, 200]) ∧
    c2vecLines.getLast? = some (3, .vec
      [min cap (pyRound (100 * (1 * (1 + 0) * (1 + 0))) 0),
       min cap (pyRound (200 * (1 * (1 + 0) * (1 + 0))) 0)]) := by
  refine ⟨by norm_num, by intro y h1 h2; simp; omega, rfl, rfl, rfl, ?_⟩
  obtain ⟨vs, h1, h2, h3⟩ := (final_year_uses_prior_value 0 1 2 3 [0, 0, 0] []
      (1 * (1 + 0) * (1 + 0)) c2vecRec c2vecLines (by norm_num)
      (by intro y h1 h2; simp; omega) rfl rfl).2.2 [100, 200] rfl
  have hv0 := (h3 0 (by norm_num)).1 rfl
  have hv1 := (h3 1 (by norm_num)).1 rfl
  have hvs : vs = [min cap (pyRound (100 * (1 * (1 + 0) * (1 + 0))) 0),
      min cap (pyRound (200 * (1 * (1 + 0) * (1 + 0))) 0)] := by
    cases vs with
    | nil => simp at h2
    | cons a t =>
      cases t with
      | nil => simp at h2
      | cons b t2 =>
        cases t2 with
        | cons c t3 => simp at h2
        | nil =>
          simp only [List.getElem?_cons_zero, Option.some.injEq] at hv0
          simp only [List.getElem?_cons_succ, List.getElem?_cons_zero,
            Option.some.injEq] at hv1
          rw [hv0, hv1]
          rfl
  rw [← hvs]
  exact h1
